import Mathlib

/-
Verification of the chianti data-pipeline library (TobyPDE/chianti).

Shallow embedding of the pieces of the C++ sources that the checked
properties are about:
  * SubsampleAugmentor::resizeTarget        (augmentors.cpp)
  * DataProvider::encode_onehot / loadBatch (providers.cpp)
  * TranslationAugmentor::augment           (augmentors.cpp)
  * WeightedRandomIterator::normalizeWeights(iterators.cpp / iterators.h)
  * RandomIterator::next / reset            (iterators.cpp / iterators.h)
  * SequentialIterator::next                (iterators.cpp / iterators.h)
  * CSLabelTransformationAugmentation       (Augmentor.h, old API)
  * HueAugmentor::augment                   (augmentors.cpp)
  * Tensor<T, Rank> copy operations         (types.h)

Conventions: machine bytes are Nat (values 0..255 enforced by hypotheses
where needed), C++ float/double is modelled by Rat, images are total
functions from row/column indices to pixel values together with explicit
row/column counts, and code that throws returns Except.
-/

set_option maxHeartbeats 1000000
set_option maxRecDepth 20000

namespace Chianti

/-! ### Hue augmentation (HueAugmentor::augment, augmentors.cpp lines 256-282)

The C++ code converts to HSV, adds the drawn offset to the H channel of
every pixel and wraps once: if the result exceeds 360 it subtracts 360,
else if it is negative it adds 360.  The HSV conversion itself is an
external OpenCV primitive; the wrap arithmetic on the hue channel is what
is modelled here. -/

/-- One hue-channel value after HueAugmentor adds the drawn offset:
`value += offset; if (value > 360) value -= 360; else if (value < 0) value += 360;`. -/
def hueAdjust (h offset : ℚ) : ℚ :=
  let v := h + offset
  if v > 360 then v - 360
  else if v < 0 then v + 360
  else v

/-- The hue channel of the whole image after `HueAugmentor::augment` with a
drawn offset: the per-pixel adjustment applied at every position. -/
def hueAugment (hue : ℕ → ℕ → ℚ) (offset : ℚ) : ℕ → ℕ → ℚ :=
  fun i j => hueAdjust (hue i j) offset

/-! ### Cityscapes label remap (CSLabelTransformationAugmentation, old-API Augmentor header)

`fillTransformationTable` resizes the table to 34 entries and assigns the
values below; `augment` then indexes the table with the raw 8-bit pixel
value.  A pixel value of 34 or more reads past the end of the
`std::vector<int>`; the model returns `none` for such an out-of-bounds
read, since the C++ behaviour there is undefined. -/

/-- The 34-entry table built by `fillTransformationTable`. -/
def transformationTable : List ℕ :=
  [255, 255, 255, 255, 255, 255, 255, 0, 1, 255, 255, 2, 3, 4, 255, 255,
   255, 5, 255, 6, 7, 8, 9, 10, 11, 12, 13, 14, 15, 255, 255, 16, 17, 18]

/-- `transformationTable[v]` as read by `augment`; `none` models the
out-of-bounds vector read performed for `v ≥ 34`. -/
def csRemapPixel (v : ℕ) : Option ℕ :=
  transformationTable.get? v

/-- The whole target image after `CSLabelTransformationAugmentation::augment`:
every pixel is replaced by its table entry. -/
def csAugmentTarget (target : ℕ → ℕ → ℕ) : ℕ → ℕ → Option ℕ :=
  fun i j => csRemapPixel (target i j)

/-! ### Tensor copy operations (Tensor<T, Rank>, types.h lines 213-285)

`Tensor` keeps a shape array and a row-major `std::vector` of data.  The
copy constructor runs `shape = other.shape; data.resize(getSize());
data.insert(data.begin(), other.data.begin(), other.data.end());` and the
copy-assignment operator runs `reshape(other.shape)` (which resizes the
existing data vector) followed by the same insert.  `std::vector::insert`
at `begin()` prepends, so both end up with the source data followed by
the old (resized) contents. -/

/-- Model of `Tensor<float, Rank>`: the shape list plus the row-major data
vector (float modelled by ℚ). -/
structure Tensor where
  shape : List ℕ
  data : List ℚ
deriving DecidableEq

/-- `Tensor::getSize`: the product of the shape entries, computed by the
source's loop `size = 1; for r in [0, Rank): size *= shape[r]`. -/
def Tensor.getSize (t : Tensor) : ℕ :=
  t.shape.foldl (fun s r => s * r) 1

/-- `std::vector::resize` on the data vector: keep a prefix, pad with
value-initialized elements (0) up to the requested length. -/
def listResize (l : List ℚ) (n : ℕ) : List ℚ :=
  l.take n ++ List.replicate (n - l.length) 0

/-- The copy constructor `Tensor(const Tensor&)`: after `shape = other.shape`
the fresh data vector is resized to `getSize()` (all zeros) and then
`other.data` is inserted at the front. -/
def Tensor.copy (other : Tensor) : Tensor :=
  { shape := other.shape
    data := other.data ++ List.replicate other.getSize 0 }

/-- The copy-assignment `operator=`: `reshape(other.shape)` resizes the
current data vector to the new size, then `other.data` is inserted at the
front. -/
def Tensor.assign (t other : Tensor) : Tensor :=
  { shape := other.shape
    data := other.data ++ listResize t.data other.getSize }

/-! ### Subsample label vote (SubsampleAugmentor::resizeTarget, augmentors.cpp lines 31-71)

The target is shrunk by an integer factor.  Each output pixel (i, j)
looks at the f×f input block starting at (i*f, j*f), builds a 256-bin
histogram of the labels in that block, scans for the mode
(`mode = 0; for k in [0,256): if (hist[k] > hist[mode]) mode = k`), and
emits the mode when its count strictly exceeds `factor * factor / 2`
(integer division), otherwise the void sentinel 255. -/

/-- The histogram bin `k` for the f×f block of the input target whose
top-left corner is `(i * factor, j * factor)`: the number of cells
`(_i, _j)` of the block with `target _i _j = k`. -/
def blockHistogram (target : ℕ → ℕ → ℕ) (factor i j k : ℕ) : ℕ :=
  ((Finset.range factor ×ˢ Finset.range factor).filter
    (fun p => target (i * factor + p.1) (j * factor + p.2) = k)).card

/-- The mode scan of `resizeTarget` restricted to the first `n` bins,
started at candidate `m0`. -/
def modeFold (hist : ℕ → ℕ) (m0 n : ℕ) : ℕ :=
  (List.range n).foldl (fun mode k => if hist k > hist mode then k else mode) m0

/-- The mode of a 256-bin histogram as computed by `resizeTarget`:
the least bin index attaining the maximal count. -/
def histogramMode (hist : ℕ → ℕ) : ℕ :=
  modeFold hist 0 256

/-- One output pixel of `SubsampleAugmentor::resizeTarget`: the block
mode if its count strictly exceeds `factor * factor / 2` (the
`halfRegionSize` of the code), else the void sentinel 255. -/
def resizeTargetPixel (target : ℕ → ℕ → ℕ) (factor i j : ℕ) : ℕ :=
  if blockHistogram target factor i j
      (histogramMode (blockHistogram target factor i j)) > factor * factor / 2 then
    histogramMode (blockHistogram target factor i j)
  else 255

/-- The output size of `resizeTarget`:
`cv::Size(target.cols / factor, target.rows / factor)`. -/
def resizeTargetSize (rows cols factor : ℕ) : ℕ × ℕ :=
  (rows / factor, cols / factor)

/-! ### Weighted-random iterator weight validation
(WeightedRandomIterator::normalizeWeights, iterators.cpp lines 566-588,
called from the constructor in iterators.h lines 235-245)

The function throws when the weight count differs from the container
size.  It then replaces each weight by its absolute value, sums them,
divides each by the sum and accumulates the running total in place,
leaving the cumulative distribution.  There is no check for an all-zero
weight vector: a zero sum silently divides by zero (IEEE doubles give
NaN there; ℚ totalizes the division as 0 — either way no error is
raised, which is all the validation claim is about). -/

/-- `WeightedRandomIterator::normalizeWeights`; the `Except` models the
one `throw` in the function. -/
def normalizeWeights (containerSize : ℕ) (weights : List ℚ) : Except String (List ℚ) :=
  if containerSize ≠ weights.length then
    Except.error "Number of weights differs from number of elements in container."
  else
    let absWeights := weights.map (fun w => |w|)
    let s := absWeights.sum
    Except.ok (((absWeights.map (fun w => w / s)).scanl (· + ·) 0).tail)

/-- Whether a modelled C++ call ended in a thrown exception. -/
def isFatal {ε α : Type} : Except ε α → Bool
  | Except.error _ => true
  | Except.ok _ => false

/-! ### Sequential iterator (SequentialIterator::next, iterators.cpp lines 527-544)

State is the cursor into the container (`nextElement`, here the index of
the next element, with `n` for `container->end()`).  `next()` first wraps
the cursor when it sits at the end, then throws if the container is
empty, then returns the current element and advances. -/

/-- One `SequentialIterator::next()` call on a container of `n` elements
with cursor `cursor`: returns the emitted index and the new cursor. -/
def seqNext (n cursor : ℕ) : Except String (ℕ × ℕ) :=
  let c := if cursor = n then 0 else cursor
  if n = 0 then Except.error "Container is empty."
  else Except.ok (c, c + 1)

/-- The cursor after `k` calls to `next()` starting from the freshly
constructed state (cursor = begin = 0); a throwing call leaves the
cursor unchanged. -/
def seqRun (n : ℕ) : ℕ → ℕ
  | 0 => 0
  | k + 1 =>
    match seqNext n (seqRun n k) with
    | Except.ok p => p.2
    | Except.error _ => seqRun n k

/-- The index emitted by the `k`-th call to `next()` (counting from 0)
after construction. -/
def seqEmit (n k : ℕ) : Except String ℕ :=
  (seqNext n (seqRun n k)).map Prod.fst

/-! ### Translation augmentation (TranslationAugmentor::augment, augmentors.cpp lines 93-148)

After drawing integer offsets `(translation_x, translation_y)` the code
throws when image and target dimensions differ.  Then, for each output
pixel (i, j), it computes `_i = i + translation_x`, `_j = j +
translation_y`; a negative index is reflected to its absolute value and
an index at or past the end is reflected to `2 * size - index - 1`, in
both cases flagging the pixel out-of-bounds.  The image always reads the
(possibly reflected) input pixel; the target reads it only when no
reflection happened, and receives the void sentinel 255 otherwise. -/

/-- The row (or column) lookup of the translation loop: the effective
source index together with the out-of-bounds flag. -/
def reflectIndex (size : ℕ) (x : ℤ) : ℕ × Bool :=
  if x < 0 then (x.natAbs, true)
  else if (size : ℤ) ≤ x then ((2 * (size : ℤ) - x - 1).toNat, true)
  else (x.toNat, false)

/-- The image plane produced by `TranslationAugmentor::augment` with drawn
offsets `(tx, ty)`: every output pixel reads the reflected source pixel. -/
def translatedImage {α : Type} (img : ℕ → ℕ → α) (rows cols : ℕ) (tx ty : ℤ) :
    ℕ → ℕ → α :=
  fun i j => img (reflectIndex rows ((i : ℤ) + tx)).1 (reflectIndex cols ((j : ℤ) + ty)).1

/-- The target plane produced by `TranslationAugmentor::augment`: the
source pixel when both indices are in bounds, the void sentinel 255 when
either index was reflected. -/
def translatedTarget (target : ℕ → ℕ → ℕ) (rows cols : ℕ) (tx ty : ℤ) :
    ℕ → ℕ → ℕ :=
  fun i j =>
    if (reflectIndex rows ((i : ℤ) + tx)).2 || (reflectIndex cols ((j : ℤ) + ty)).2 then 255
    else target (reflectIndex rows ((i : ℤ) + tx)).1 (reflectIndex cols ((j : ℤ) + ty)).1

/-- `TranslationAugmentor::augment` for a drawn offset `(tx, ty)`:
fatal when the image and target dimensions differ, otherwise the
translated pair. -/
def translationAugment {α : Type} (img : ℕ → ℕ → α) (target : ℕ → ℕ → ℕ)
    (imgRows imgCols targetRows targetCols : ℕ) (tx ty : ℤ) :
    Except String ((ℕ → ℕ → α) × (ℕ → ℕ → ℕ)) :=
  if imgRows ≠ targetRows ∨ imgCols ≠ targetCols then
    Except.error
      "Image and target must be of the same size when using translation augmentation."
  else
    Except.ok (translatedImage img imgRows imgCols tx ty,
               translatedTarget target imgRows imgCols tx ty)

/-! ### One-hot packing (DataProvider::encode_onehot and loadBatch,
providers.cpp lines 98-166)

`encode_onehot` walks the 8-bit target image and, for every non-void
pixel value `val`, sets `tensor.data[offset + val * imgSize + i * cols + j]`
to 1.0, where `imgSize = rows * cols`.  No other check is performed.
`loadBatch` allocates the 4-rank targets tensor of shape
`(batchSize, numClasses, rows, cols)`, zero-fills it, and calls
`encode_onehot` for batch element `i` with
`offset = i * (numClasses * rows * cols)`.  The OMP-parallel batch loop
writes disjoint index ranges per element (claim C9), so the sequential
fold below produces the same final tensor contents. -/

/-- The flat tensor index written by `encode_onehot` for pixel `(i, j)`
with label `val`: `offset + val * imgSize + i * target.cols + j`. -/
def onehotIndex (offset rows cols val i j : ℕ) : ℕ :=
  offset + val * (rows * cols) + i * cols + j

/-- `DataProvider::encode_onehot`: both pixel loops, writing 1.0 at the
one-hot index of every non-void pixel.  The tensor data vector is
modelled as a total function from flat indices to values. -/
def encode_onehot (target : ℕ → ℕ → ℕ) (rows cols : ℕ) (tensor : ℕ → ℚ)
    (offset : ℕ) : ℕ → ℚ :=
  (List.range rows).foldl
    (fun d i =>
      (List.range cols).foldl
        (fun d' j =>
          if target i j ≠ 255 then
            Function.update d' (onehotIndex offset rows cols (target i j) i j) 1
          else d')
        d)
    tensor

/-- The targets tensor assembled by `loadBatch`: zero-filled, then
`encode_onehot` applied for every batch element `b` at offset
`b * (numClasses * rows * cols)`. -/
def batchTargets (targets : ℕ → ℕ → ℕ → ℕ) (batchSize numClasses rows cols : ℕ) :
    ℕ → ℚ :=
  (List.range batchSize).foldl
    (fun d b => encode_onehot (targets b) rows cols d (b * (numClasses * (rows * cols))))
    (fun _ => 0)

/-- Whether some pixel of the given target image makes `encode_onehot`
write flat index `k`. -/
def written (target : ℕ → ℕ → ℕ) (rows cols offset k : ℕ) : Prop :=
  ∃ i, i < rows ∧ ∃ j, j < cols ∧ target i j ≠ 255 ∧
    onehotIndex offset rows cols (target i j) i j = k

/-- The per-pixel class-channel column sum of the packed targets tensor:
`Σ_c targets[b, c, y, x]` over the `numClasses` channels. -/
def onehotColumnSum (targets : ℕ → ℕ → ℕ → ℕ)
    (batchSize numClasses rows cols b y x : ℕ) : ℚ :=
  ∑ c in Finset.range numClasses,
    batchTargets targets batchSize numClasses rows cols
      (onehotIndex (b * (numClasses * (rows * cols))) rows cols c y x)

/-! ### Random iterator (RandomIterator, iterators.h lines 133-202 and
iterators.cpp lines 546-564)

The constructor fills `keys` with 0..n-1 (`std::iota`) and shuffles it
with the mt19937 seeded from the supplied seed.  `next()` hands out
`container->begin() + *nextKey++`, so the first `n` calls after a
shuffle emit the key vector in position order.  `reset()` re-seeds the
generator from the stored original seed and calls `shuffle()` — which
shuffles the CURRENT key vector; it does not first restore 0..n-1.
`std::shuffle` is the Fisher-Yates loop
`for i = n-1 down to 1: swap(v[i], v[D(0,i)(g)])`; the drawn swap
positions depend only on the generator, so a re-seeded generator
replays the same swap sequence on whatever vector it is handed.  The
generator together with its bounded draw is external standard-library
code and is modelled as an abstract draw function
`rand : σ → ℕ → ℕ × σ` (state and bound to drawn index and new state);
the key vector is modelled as a total function from positions to keys,
with a swap realized by precomposition with `Equiv.swap`. -/

/-- The Fisher-Yates loop of `std::shuffle`, processing positions
`i, i-1, ..., 1`: swap position `i` with the drawn position in `[0, i]`. -/
def fyApply {σ : Type} (rand : σ → ℕ → ℕ × σ) : ℕ → (ℕ → ℕ) → σ → (ℕ → ℕ) × σ
  | 0, v, g => (v, g)
  | i + 1, v, g =>
    let t := rand g (i + 1)
    fyApply rand i (v ∘ (Equiv.swap (i + 1) t.1)) t.2

/-- `RandomIterator::shuffle()` on a key vector of `n` entries. -/
def shuffleKeys {σ : Type} (rand : σ → ℕ → ℕ × σ) (n : ℕ) (keys : ℕ → ℕ)
    (g : σ) : (ℕ → ℕ) × σ :=
  fyApply rand (n - 1) keys g

/-- The key vector and generator after the RandomIterator constructor:
iota 0..n-1 shuffled once with the freshly seeded generator. -/
def randomIterInit {σ : Type} (rand : σ → ℕ → ℕ × σ) (n : ℕ) (g0 : σ) :
    (ℕ → ℕ) × σ :=
  shuffleKeys rand n (fun x => x) g0

/-- The key vector and generator after `reset()`: the generator is
re-seeded to the original seed state `g0`, and the current key vector is
shuffled again (it is not restored to 0..n-1 first). -/
def randomIterReset {σ : Type} (rand : σ → ℕ → ℕ × σ) (n : ℕ) (keys : ℕ → ℕ)
    (g0 : σ) : (ℕ → ℕ) × σ :=
  shuffleKeys rand n keys g0

/-- The indices emitted by the first `n` `next()` calls after a shuffle:
the key vector in position order. -/
def epochSeq (keys : ℕ → ℕ) (n : ℕ) : List ℕ :=
  (List.range n).map keys

/-- A concrete instance of the abstract generator draw: every draw
returns position 0 (a legal value of `uniform_int_distribution(0, i)`,
realized by some mt19937 seed). -/
def randZero : Unit → ℕ → ℕ × Unit :=
  fun _ _ => (0, ())

end Chianti

namespace Chianti

/-! ## Theorems -/

/-- C8 counterexample: the claim asserts that after Hue augmentation every
hue value lies in the half-open interval [0, 360).  Starting hue 350 with
drawn offset 10 gives 350 + 10 = 360, which the code's strict test
`value > 360` does not wrap, so the resulting hue is exactly 360 and the
half-open bound fails. -/
theorem hue_360_not_wrapped :
    hueAugment (fun _ _ => 350) 10 0 0 = 360 ∧
    ¬ hueAugment (fun _ _ => 350) 10 0 0 < 360 := by
  constructor
  · norm_num [hueAugment, hueAdjust]
  · norm_num [hueAugment, hueAdjust]

/-- C8 (amended): if every input hue lies in [0, 360) and the drawn offset
lies in [-360, 360], then after Hue augmentation every hue value lies in
the closed interval [0, 360]; the endpoint 360 is reachable. -/
theorem hue_augment_range (hue : ℕ → ℕ → ℚ) (offset : ℚ)
    (hlo : ∀ i j, 0 ≤ hue i j) (hhi : ∀ i j, hue i j < 360)
    (ho1 : -360 ≤ offset) (ho2 : offset ≤ 360) :
    ∀ i j, 0 ≤ hueAugment hue offset i j ∧ hueAugment hue offset i j ≤ 360 := by
  intro i j
  have h1 := hlo i j
  have h2 := hhi i j
  unfold hueAugment hueAdjust
  dsimp only
  split_ifs with hgt hlt
  · constructor <;> linarith
  · constructor <;> linarith
  · constructor <;> linarith

/-- Witness for `hue_augment_range` at hue 350, offset 10. -/
theorem hue_augment_range_witness :
    0 ≤ hueAugment (fun _ _ => 350) 10 0 0 ∧ hueAugment (fun _ _ => 350) 10 0 0 ≤ 360 :=
  hue_augment_range (fun _ _ => 350) 10 (fun _ _ => by norm_num)
    (fun _ _ => by norm_num) (by norm_num) (by norm_num) 0 0

/-- C7 counterexample: the claim asserts that every pixel value in [0, 255]
outside the training set is replaced by 255.  Pixel value 34 is outside the
training set, but the table holds exactly 34 entries, so the code reads
`transformationTable[34]` out of bounds (undefined behaviour, modelled as
`none`) instead of producing 255. -/
theorem cs_remap_34_out_of_bounds :
    transformationTable.length = 34 ∧
    csAugmentTarget (fun _ _ => 34) 0 0 = none ∧
    csAugmentTarget (fun _ _ => 34) 0 0 ≠ some 255 := by
  refine ⟨rfl, rfl, by decide⟩

/-- C7 (amended): for raw label values below 34 the augmentor replaces the
value by its entry in the fixed 34-entry table; every defined entry is
either a contiguous training id in [0, 18] or the void sentinel 255, and
every training id in [0, 18] is hit by some raw label; for values of 34 or
more the table lookup is out of bounds and has no defined result. -/
theorem cs_remap_table (target : ℕ → ℕ → ℕ) (i j : ℕ) :
    (∀ v, v < 34 → ∃ e, csRemapPixel v = some e ∧ (e ≤ 18 ∨ e = 255)) ∧
    (∀ t, t ≤ 18 → ∃ v, v < 34 ∧ csRemapPixel v = some t) ∧
    (∀ v, 34 ≤ v → csRemapPixel v = none) ∧
    csAugmentTarget target i j = csRemapPixel (target i j) := by
  refine ⟨by decide, by decide, ?_, rfl⟩
  intro v hv
  have hlen : transformationTable.length ≤ v := by
    simpa [transformationTable] using hv
  simpa [csRemapPixel] using List.get?_eq_none.mpr hlen

/-- Witness for `cs_remap_table`: raw label 7 maps to training id 0 and
raw label 34 has no table entry. -/
theorem cs_remap_table_witness :
    csRemapPixel 34 = none ∧ csAugmentTarget (fun _ _ => 7) 0 0 = csRemapPixel 7 :=
  ⟨(cs_remap_table (fun _ _ => 7) 0 0).2.2.1 34 (by norm_num),
   (cs_remap_table (fun _ _ => 7) 0 0).2.2.2⟩

/-- The mode scan invariant: the result of scanning the first `n` bins
from candidate `m0` is `m0` or a bin below `n`, its count dominates the
start candidate, and it dominates every bin below `n`. -/
theorem modeFold_spec (hist : ℕ → ℕ) :
    ∀ n m0, (modeFold hist m0 n = m0 ∨ modeFold hist m0 n < n) ∧
      hist m0 ≤ hist (modeFold hist m0 n) ∧
      (∀ k, k < n → hist k ≤ hist (modeFold hist m0 n)) := by
  intro n
  induction n with
  | zero =>
    intro m0
    refine ⟨Or.inl rfl, le_refl _, ?_⟩
    intro k hk
    omega
  | succ n ih =>
    intro m0
    obtain ⟨h1, h2, h3⟩ := ih m0
    have hsplit : modeFold hist m0 (n + 1) =
        if hist n > hist (modeFold hist m0 n) then n else modeFold hist m0 n := by
      unfold modeFold
      rw [List.range_succ, List.foldl_append]
      rfl
    rw [hsplit]
    by_cases hc : hist n > hist (modeFold hist m0 n)
    · rw [if_pos hc]
      refine ⟨Or.inr (by omega), le_trans h2 (le_of_lt hc), ?_⟩
      intro k hk
      rcases Nat.lt_or_ge k n with h | h
      · exact le_trans (h3 k h) (le_of_lt hc)
      · have hkn : k = n := by omega
        rw [hkn]
    · rw [if_neg hc]
      refine ⟨?_, h2, ?_⟩
      · rcases h1 with h | h
        · exact Or.inl h
        · exact Or.inr (by omega)
      · intro k hk
        rcases Nat.lt_or_ge k n with h | h
        · exact h3 k h
        · have hkn : k = n := by omega
          rw [hkn]
          exact le_of_not_lt hc

/-- The mode of a 256-bin histogram is one of the 256 bins. -/
theorem histogramMode_lt (hist : ℕ → ℕ) : histogramMode hist < 256 := by
  rcases (modeFold_spec hist 256 0).1 with h | h
  · rw [histogramMode, h]
    omega
  · exact h

/-- The mode's count dominates every bin. -/
theorem histogramMode_max (hist : ℕ → ℕ) :
    ∀ k, k < 256 → hist k ≤ hist (histogramMode hist) :=
  (modeFold_spec hist 256 0).2.2

/-- Two distinct histogram bins together cannot exceed the block size. -/
theorem blockHistogram_pair_le (target : ℕ → ℕ → ℕ) (factor i j X Y : ℕ)
    (hXY : X ≠ Y) :
    blockHistogram target factor i j X + blockHistogram target factor i j Y ≤
      factor * factor := by
  unfold blockHistogram
  have hdisj : Disjoint
      ((Finset.range factor ×ˢ Finset.range factor).filter
        (fun p => target (i * factor + p.1) (j * factor + p.2) = X))
      ((Finset.range factor ×ˢ Finset.range factor).filter
        (fun p => target (i * factor + p.1) (j * factor + p.2) = Y)) := by
    rw [Finset.disjoint_left]
    intro p hpX hpY
    rw [Finset.mem_filter] at hpX hpY
    exact hXY (hpX.2.symm.trans hpY.2)
  calc _ = (((Finset.range factor ×ˢ Finset.range factor).filter
          (fun p => target (i * factor + p.1) (j * factor + p.2) = X)) ∪
        ((Finset.range factor ×ˢ Finset.range factor).filter
          (fun p => target (i * factor + p.1) (j * factor + p.2) = Y))).card :=
        (Finset.card_union_of_disjoint hdisj).symm
    _ ≤ (Finset.range factor ×ˢ Finset.range factor).card :=
        Finset.card_le_card
          (Finset.union_subset (Finset.filter_subset _ _) (Finset.filter_subset _ _))
    _ = factor * factor := by
        rw [Finset.card_product, Finset.card_range]

/-- C1: the subsample label vote.  For the f×f block of output pixel
(i, j): (a) the scanned mode dominates all 256 bins; (b) if the mode's
count strictly exceeds `f*f/2` the output pixel is the mode; (c) if it
does not, the output pixel is the void sentinel 255; (d) a label X
occupying strictly more than half the block is the output pixel; (e) if
no label occupies more than half the block the output is 255. -/
theorem subsample_vote (target : ℕ → ℕ → ℕ) (factor i j : ℕ) :
    (∀ k, k < 256 → blockHistogram target factor i j k ≤
      blockHistogram target factor i j
        (histogramMode (blockHistogram target factor i j))) ∧
    (blockHistogram target factor i j
        (histogramMode (blockHistogram target factor i j)) > factor * factor / 2 →
      resizeTargetPixel target factor i j =
        histogramMode (blockHistogram target factor i j)) ∧
    (blockHistogram target factor i j
        (histogramMode (blockHistogram target factor i j)) ≤ factor * factor / 2 →
      resizeTargetPixel target factor i j = 255) ∧
    (∀ X, X < 256 → factor * factor < 2 * blockHistogram target factor i j X →
      resizeTargetPixel target factor i j = X) ∧
    ((∀ k, k < 256 → 2 * blockHistogram target factor i j k ≤ factor * factor) →
      resizeTargetPixel target factor i j = 255) := by
  have hmax := histogramMode_max (blockHistogram target factor i j)
  have hlt := histogramMode_lt (blockHistogram target factor i j)
  refine ⟨hmax, ?_, ?_, ?_, ?_⟩
  · intro hgt
    rw [resizeTargetPixel, if_pos hgt]
  · intro hle
    rw [resizeTargetPixel, if_neg (not_lt.mpr hle)]
  · intro X hX hmaj
    have hXm := hmax X hX
    have hmode : histogramMode (blockHistogram target factor i j) = X := by
      by_contra hne
      have hpair := blockHistogram_pair_le target factor i j X
        (histogramMode (blockHistogram target factor i j)) (fun he => hne he.symm)
      omega
    have hgt : blockHistogram target factor i j
        (histogramMode (blockHistogram target factor i j)) > factor * factor / 2 := by
      rw [hmode]
      exact Nat.div_lt_of_lt_mul (by omega)
    rw [resizeTargetPixel, if_pos hgt, hmode]
  · intro hall
    have hm := hall _ hlt
    have hle : blockHistogram target factor i j
        (histogramMode (blockHistogram target factor i j)) ≤ factor * factor / 2 :=
      (Nat.le_div_iff_mul_le (by norm_num)).mpr (by omega)
    rw [resizeTargetPixel, if_neg (not_lt.mpr hle)]

/-- Witness for `subsample_vote`: the 4×4 target
[[1,1,2,2],[1,1,2,2],[3,3,4,4],[3,3,4,4]] with factor 2 gives output
pixel (0,0) = 1 (label 1 fills its whole 2×2 block), and a fully tied
2×2 block ([[1,2],[2,1]]) gives the void sentinel 255. -/
theorem subsample_vote_witness :
    resizeTargetPixel
      (fun i j => if i < 2 then (if j < 2 then 1 else 2) else (if j < 2 then 3 else 4))
      2 0 0 = 1 ∧
    resizeTargetPixel (fun i j => if i = j then 1 else 2) 2 0 0 = 255 :=
  ⟨(subsample_vote
      (fun i j => if i < 2 then (if j < 2 then 1 else 2) else (if j < 2 then 3 else 4))
      2 0 0).2.2.2.1 1 (by norm_num) (by decide),
   (subsample_vote (fun i j => if i = j then 1 else 2) 2 0 0).2.2.2.2 (by decide)⟩

/-- C4 counterexample: the claim asserts that an all-zero weight vector
makes the WeightedRandomIterator constructor fail loudly.  The constructor
only calls `normalizeWeights`, whose sole throw is the size-mismatch
check; with a container of 2 elements and weights [0, 0] no exception is
raised (the zero sum is divided by silently), so construction succeeds. -/
theorem normalize_weights_all_zero_ok :
    isFatal (normalizeWeights 2 [0, 0]) = false := by
  rfl

/-- C4 (amended): `normalizeWeights` folds every weight to its absolute
value before normalization (normalizing a weight vector and normalizing
its absolute values give the same result), and it is fatal exactly when
the number of weights differs from the number of container elements —
in particular an all-zero weight vector of matching length is accepted. -/
theorem normalize_weights_validation (n : ℕ) (ws : List ℚ) :
    (isFatal (normalizeWeights n ws) = true ↔ n ≠ ws.length) ∧
    normalizeWeights n ws = normalizeWeights n (ws.map (fun w => |w|)) := by
  constructor
  · unfold normalizeWeights
    split_ifs with h
    · simp [isFatal, h]
    · simp [isFatal, h]
  · have habs : ((fun w : ℚ => |w|) ∘ fun w : ℚ => |w|) = fun w : ℚ => |w| := by
      funext w
      exact abs_abs w
    simp only [normalizeWeights, List.length_map, List.map_map, habs]

/-- Sequential `next()` helper: advancing the remainder cursor by one. -/
theorem mod_step (k n : ℕ) (hn : 0 < n) :
    (k + 1) % n = if k % n + 1 = n then 0 else k % n + 1 := by
  have hd : n * (k / n) + k % n = k := Nat.div_add_mod k n
  have hr : k % n < n := Nat.mod_lt k hn
  by_cases hc : k % n + 1 = n
  · have hk : k + 1 = n * (k / n + 1) := by
      rw [Nat.mul_add, Nat.mul_one]
      omega
    rw [if_pos hc, hk, Nat.mul_mod_right]
  · have hlt : k % n + 1 < n := by omega
    have hk : k + 1 = n * (k / n) + (k % n + 1) := by omega
    rw [if_neg hc, hk, Nat.mul_add_mod, Nat.mod_eq_of_lt hlt]

/-- Joint invariant of the sequential iterator run: the `k`-th call emits
index `k % n` and leaves the cursor at `k % n + 1`. -/
theorem seq_step (n : ℕ) (hn : 0 < n) :
    ∀ k, seqEmit n k = Except.ok (k % n) ∧ seqRun n (k + 1) = k % n + 1 := by
  have hne : n ≠ 0 := by omega
  intro k
  induction k with
  | zero =>
    constructor
    · simp [seqEmit, seqRun, seqNext, hne, Except.map]
    · simp [seqRun, seqNext, hne]
  | succ k ih =>
    obtain ⟨ih1, ih2⟩ := ih
    have hcur : (if k % n + 1 = n then 0 else k % n + 1) = (k + 1) % n :=
      (mod_step k n hn).symm
    constructor
    · show Except.map Prod.fst (seqNext n (seqRun n (k + 1))) = Except.ok ((k + 1) % n)
      rw [ih2]
      simp only [seqNext, if_neg hne, Except.map, hcur]
    · show (match seqNext n (seqRun n (k + 1)) with
        | Except.ok p => p.2
        | Except.error _ => seqRun n (k + 1)) = (k + 1) % n + 1
      simp only [ih2, seqNext, hne, if_false, hcur]

/-- C6: for a Sequential iterator over a non-empty container of `n`
elements, the `k`-th call to `next()` (counting from 0) emits the index
`k % n`, hence returns the container element at index `k % n`; in
particular the `r`-th call of the `k`-th group of `batch` consecutive
calls emits index `(k * batch + r) % n`, so each group covers
`[k * batch, (k+1) * batch)` modulo `n` in declared order. -/
theorem sequential_iterator_order {α : Type} (n : ℕ) (hn : 0 < n) (k : ℕ)
    (container : ℕ → α) :
    seqEmit n k = Except.ok (k % n) ∧
    (seqEmit n k).map container = Except.ok (container (k % n)) ∧
    (∀ batch r : ℕ, r < batch →
      seqEmit n (k * batch + r) = Except.ok ((k * batch + r) % n)) := by
  refine ⟨(seq_step n hn k).1, ?_, ?_⟩
  · rw [(seq_step n hn k).1]
    rfl
  · intro batch r _
    exact (seq_step n hn (k * batch + r)).1

/-- Witness for `sequential_iterator_order`: over 3 elements the 5th call
(counting from 0) emits index 2. -/
theorem sequential_iterator_order_witness : seqEmit 3 5 = Except.ok 2 := by
  have h := (sequential_iterator_order 3 (by norm_num) 5 (fun i : ℕ => i)).1
  simpa using h

/-- C3 counterexample: the claim's concrete example asserts that a
translation by drawn offset (tx, ty) = (1, 0) of a 2×2 pair with target
[[10,20],[30,40]] produces the target [[255,255],[10,20]].  The code reads
input pixel (i+tx, j+ty), so output row 0 reads input row 1 (in bounds,
giving [30,40]) and output row 1 reads input row 2 (reflected, hence
void): the actual output is [[30,40],[255,255]], and pixel (0,0) is 30,
not the 255 the claim asserts. -/
theorem translation_example_wrong :
    (match translationAugment (fun _ _ => (0 : ℕ))
        (fun i j => if i = 0 then (if j = 0 then 10 else 20)
                    else (if j = 0 then 30 else 40)) 2 2 2 2 1 0 with
     | Except.ok p => p.2 0 0
     | Except.error _ => 0) = 30 ∧ (30 : ℕ) ≠ 255 := by
  constructor
  · rfl
  · decide

/-- C3 (amended): translation semantics.  With matching dimensions the
augmentor succeeds and returns the translated pair; with mismatching
dimensions it is fatal.  Every output pixel (i, j) reads input pixel
(i+tx, j+ty): in bounds both planes read it directly; when a reflected
index is used (|i+tx| below 0, 2*rows-(i+tx)-1 at or past rows, and the
same for columns) the image plane reads the reflected pixel while the
target plane receives the void sentinel 255.  The claim's 2×2 example
with offset (1, 0) and target [[10,20],[30,40]] actually yields target
[[30,40],[255,255]] (the claimed [[255,255],[10,20]] is what offset
(-1, 0) produces). -/
theorem translation_semantics {α : Type} (img : ℕ → ℕ → α) (target : ℕ → ℕ → ℕ)
    (rows cols : ℕ) (tx ty : ℤ) :
    (translationAugment img target rows cols rows cols tx ty =
      Except.ok (translatedImage img rows cols tx ty,
                 translatedTarget target rows cols tx ty)) ∧
    (∀ iR iC tR tC : ℕ,
      isFatal (translationAugment img target iR iC tR tC tx ty) = true ↔
        (iR ≠ tR ∨ iC ≠ tC)) ∧
    (∀ i j : ℕ, 0 ≤ (i : ℤ) + tx → (i : ℤ) + tx < rows →
        0 ≤ (j : ℤ) + ty → (j : ℤ) + ty < cols →
      translatedImage img rows cols tx ty i j =
        img ((i : ℤ) + tx).toNat ((j : ℤ) + ty).toNat ∧
      translatedTarget target rows cols tx ty i j =
        target ((i : ℤ) + tx).toNat ((j : ℤ) + ty).toNat) ∧
    (∀ i j : ℕ, (i : ℤ) + tx < 0 →
      translatedImage img rows cols tx ty i j =
        img ((i : ℤ) + tx).natAbs (reflectIndex cols ((j : ℤ) + ty)).1 ∧
      translatedTarget target rows cols tx ty i j = 255) ∧
    (∀ i j : ℕ, (rows : ℤ) ≤ (i : ℤ) + tx →
      translatedImage img rows cols tx ty i j =
        img (2 * (rows : ℤ) - ((i : ℤ) + tx) - 1).toNat
            (reflectIndex cols ((j : ℤ) + ty)).1 ∧
      translatedTarget target rows cols tx ty i j = 255) ∧
    (∀ i j : ℕ, ((j : ℤ) + ty < 0 ∨ (cols : ℤ) ≤ (j : ℤ) + ty) →
      translatedTarget target rows cols tx ty i j = 255) := by
  refine ⟨?_, ?_, ?_, ?_, ?_, ?_⟩
  · rw [translationAugment, if_neg]
    push_neg
    exact ⟨rfl, rfl⟩
  · intro iR iC tR tC
    rw [translationAugment]
    split_ifs with h
    · simp [isFatal, h]
    · simp [isFatal, h]
  · intro i j h1 h2 h3 h4
    have hr : reflectIndex rows ((i : ℤ) + tx) = (((i : ℤ) + tx).toNat, false) := by
      rw [reflectIndex, if_neg (by omega), if_neg (by omega)]
    have hc : reflectIndex cols ((j : ℤ) + ty) = (((j : ℤ) + ty).toNat, false) := by
      rw [reflectIndex, if_neg (by omega), if_neg (by omega)]
    constructor
    · rw [translatedImage, hr, hc]
    · rw [translatedTarget, hr, hc]
      rfl
  · intro i j h1
    have hr : reflectIndex rows ((i : ℤ) + tx) = (((i : ℤ) + tx).natAbs, true) := by
      rw [reflectIndex, if_pos h1]
    constructor
    · rw [translatedImage, hr]
    · rw [translatedTarget, hr]
      rfl
  · intro i j h1
    have hr : reflectIndex rows ((i : ℤ) + tx) =
        ((2 * (rows : ℤ) - ((i : ℤ) + tx) - 1).toNat, true) := by
      rw [reflectIndex, if_neg (by omega), if_pos h1]
    constructor
    · rw [translatedImage, hr]
    · rw [translatedTarget, hr]
      rfl
  · intro i j h1
    have hc : (reflectIndex cols ((j : ℤ) + ty)).2 = true := by
      rcases h1 with h | h
      · rw [reflectIndex, if_pos h]
      · rw [reflectIndex, if_neg (by omega), if_pos h]
    rw [translatedTarget, hc]
    simp

/-- Witness for `translation_semantics` on the 2×2 example with offset
(1, 0): output pixel (1, 0) of the target is void and output pixel (0, 0)
reads input pixel (1, 0) = 30. -/
theorem translation_semantics_witness :
    translatedTarget
      (fun i j => if i = 0 then (if j = 0 then 10 else 20)
                  else (if j = 0 then 30 else 40)) 2 2 1 0 1 0 = 255 ∧
    translatedTarget
      (fun i j => if i = 0 then (if j = 0 then 10 else 20)
                  else (if j = 0 then 30 else 40)) 2 2 1 0 0 0 = 30 := by
  have h := translation_semantics (fun _ _ => (0 : ℕ))
    (fun i j => if i = 0 then (if j = 0 then 10 else 20)
                else (if j = 0 then 30 else 40)) 2 2 1 0
  constructor
  · exact (h.2.2.2.2.1 1 0 (by norm_num)).2
  · have h2 := (h.2.2.1 0 0 (by norm_num) (by norm_num) (by norm_num) (by norm_num)).2
    simpa using h2

/-- Folding a list of steps that each either write the constant 1 at
some index or leave the data unchanged: the result at `k` is 1 when some
step writes `k`, and the original value when no step writes `k`. -/
theorem foldl_write_one {step : (ℕ → ℚ) → ℕ → ℕ → ℚ} {P : ℕ → ℕ → Prop}
    (h1 : ∀ d t k, P t k → step d t k = 1)
    (h0 : ∀ d t k, ¬ P t k → step d t k = d k) :
    ∀ (l : List ℕ) (d : ℕ → ℚ) (k : ℕ),
      ((∃ t ∈ l, P t k) → l.foldl step d k = 1) ∧
      ((∀ t ∈ l, ¬ P t k) → l.foldl step d k = d k) := by
  intro l
  induction l with
  | nil =>
    intro d k
    constructor
    · rintro ⟨t, ht, _⟩
      exact absurd ht (List.not_mem_nil t)
    · intro _
      rfl
  | cons t ts ih =>
    intro d k
    constructor
    · rintro ⟨u, hu, hP⟩
      rw [List.foldl_cons]
      rcases List.mem_cons.mp hu with h | h
      · subst h
        by_cases hex : ∃ v ∈ ts, P v k
        · exact (ih (step d u) k).1 hex
        · push_neg at hex
          rw [(ih (step d u) k).2 hex]
          exact h1 d u k hP
      · exact (ih (step d t) k).1 ⟨u, h, hP⟩
    · intro hall
      rw [List.foldl_cons,
        (ih (step d t) k).2 (fun v hv => hall v (List.mem_cons_of_mem t hv))]
      exact h0 d t k (hall t (List.mem_cons_self t ts))

/-- One inner-loop step of `encode_onehot` at a fixed row `i`: it writes
1 exactly at the one-hot index of a non-void pixel. -/
theorem encode_onehot_inner_step (target : ℕ → ℕ → ℕ) (rows cols offset : ℕ)
    (i : ℕ) (d : ℕ → ℚ) (j k : ℕ) :
    (target i j ≠ 255 ∧ onehotIndex offset rows cols (target i j) i j = k →
      (if target i j ≠ 255 then
        Function.update d (onehotIndex offset rows cols (target i j) i j) 1
      else d) k = 1) ∧
    (¬ (target i j ≠ 255 ∧ onehotIndex offset rows cols (target i j) i j = k) →
      (if target i j ≠ 255 then
        Function.update d (onehotIndex offset rows cols (target i j) i j) 1
      else d) k = d k) := by
  constructor
  · rintro ⟨hv, hidx⟩
    rw [if_pos hv, hidx]
    exact Function.update_same _ _ _
  · intro hn
    by_cases hv : target i j ≠ 255
    · rw [if_pos hv]
      have hk : k ≠ onehotIndex offset rows cols (target i j) i j :=
        fun h => hn ⟨hv, h.symm⟩
      exact Function.update_noteq hk _ _
    · rw [if_neg hv]

/-- Pointwise characterization of `encode_onehot`: index `k` holds 1 when
some non-void pixel maps to it, and the original tensor value otherwise. -/
theorem encode_onehot_char (target : ℕ → ℕ → ℕ) (rows cols : ℕ)
    (tensor : ℕ → ℚ) (offset k : ℕ) :
    (written target rows cols offset k →
      encode_onehot target rows cols tensor offset k = 1) ∧
    (¬ written target rows cols offset k →
      encode_onehot target rows cols tensor offset k = tensor k) := by
  have hinner : ∀ i (d : ℕ → ℚ) k,
      ((∃ j ∈ List.range cols,
          target i j ≠ 255 ∧ onehotIndex offset rows cols (target i j) i j = k) →
        (List.range cols).foldl
          (fun d' j =>
            if target i j ≠ 255 then
              Function.update d' (onehotIndex offset rows cols (target i j) i j) 1
            else d') d k = 1) ∧
      ((∀ j ∈ List.range cols,
          ¬ (target i j ≠ 255 ∧ onehotIndex offset rows cols (target i j) i j = k)) →
        (List.range cols).foldl
          (fun d' j =>
            if target i j ≠ 255 then
              Function.update d' (onehotIndex offset rows cols (target i j) i j) 1
            else d') d k = d k) := by
    intro i
    exact foldl_write_one
      (fun d j k h => (encode_onehot_inner_step target rows cols offset i d j k).1 h)
      (fun d j k h => (encode_onehot_inner_step target rows cols offset i d j k).2 h)
      (List.range cols)
  have houter := @foldl_write_one
    (fun d i =>
      (List.range cols).foldl
        (fun d' j =>
          if target i j ≠ 255 then
            Function.update d' (onehotIndex offset rows cols (target i j) i j) 1
          else d') d)
    (fun i k => ∃ j ∈ List.range cols,
      target i j ≠ 255 ∧ onehotIndex offset rows cols (target i j) i j = k)
    (fun d i k h => (hinner i d k).1 h)
    (fun d i k h => (hinner i d k).2 (fun j hj hP => h ⟨j, hj, hP⟩))
    (List.range rows) tensor k
  have hiff : written target rows cols offset k ↔
      ∃ i ∈ List.range rows, ∃ j ∈ List.range cols,
        target i j ≠ 255 ∧ onehotIndex offset rows cols (target i j) i j = k := by
    constructor
    · rintro ⟨i, hi, j, hj, hv, hidx⟩
      exact ⟨i, List.mem_range.mpr hi, j, List.mem_range.mpr hj, hv, hidx⟩
    · rintro ⟨i, hi, j, hj, hv, hidx⟩
      exact ⟨i, List.mem_range.mp hi, j, List.mem_range.mp hj, hv, hidx⟩
  constructor
  · intro hw
    exact houter.1 (hiff.mp hw)
  · intro hw
    refine houter.2 ?_
    intro i hi
    rintro ⟨j, hj, hv, hidx⟩
    exact hw (hiff.mpr ⟨i, hi, j, hj, hv, hidx⟩)

/-- Mixed-radix bound: `a * S + r < C * S` when `a < C` and `r < S`. -/
theorem radix_bound {a r S C : ℕ} (ha : a < C) (hr : r < S) :
    a * S + r < C * S := by
  have h1 : a * S + r < (a + 1) * S := by
    rw [Nat.add_mul, Nat.one_mul]
    omega
  have h2 : (a + 1) * S ≤ C * S := Nat.mul_le_mul_right _ (by omega)
  omega

/-- Mixed-radix uniqueness: quotient and remainder below `S` are
determined by the combined value. -/
theorem radix_unique {S a b r s : ℕ} (hr : r < S) (hs : s < S)
    (h : a * S + r = b * S + s) : a = b ∧ r = s := by
  have hS : 0 < S := by omega
  have ha : (a * S + r) % S = r := by
    rw [Nat.mul_comm a S, Nat.mul_add_mod, Nat.mod_eq_of_lt hr]
  have hb : (b * S + s) % S = s := by
    rw [Nat.mul_comm b S, Nat.mul_add_mod, Nat.mod_eq_of_lt hs]
  have hrs : r = s := by rw [← ha, h, hb]
  refine ⟨?_, hrs⟩
  have hmul : a * S = b * S := by omega
  exact Nat.eq_of_mul_eq_mul_right hS hmul

/-- The one-hot index of an in-range pixel with an in-range label lies in
the batch element's slice. -/
theorem onehotIndex_lt (offset : ℕ) {rows cols val i j numClasses : ℕ}
    (hv : val < numClasses) (hi : i < rows) (hj : j < cols) :
    offset ≤ onehotIndex offset rows cols val i j ∧
    onehotIndex offset rows cols val i j < offset + numClasses * (rows * cols) := by
  have h1 : i * cols + j < rows * cols := radix_bound hi hj
  have h2 : val * (rows * cols) + (i * cols + j) < numClasses * (rows * cols) :=
    radix_bound hv h1
  unfold onehotIndex
  omega

/-- C9: under the precondition that every non-void pixel value is below
`numClasses`, every index written by `encode_onehot` for batch-element
offset `offset` lies in `[offset, offset + numClasses * rows * cols)`,
and the tensor is untouched outside that slice. -/
theorem encode_onehot_write_bounds (target : ℕ → ℕ → ℕ)
    (rows cols offset numClasses : ℕ) (tensor : ℕ → ℚ)
    (hpre : ∀ i j, i < rows → j < cols → target i j ≠ 255 →
      target i j < numClasses) :
    (∀ i j, i < rows → j < cols → target i j ≠ 255 →
      offset ≤ onehotIndex offset rows cols (target i j) i j ∧
      onehotIndex offset rows cols (target i j) i j <
        offset + numClasses * (rows * cols)) ∧
    (∀ k, k < offset ∨ offset + numClasses * (rows * cols) ≤ k →
      encode_onehot target rows cols tensor offset k = tensor k) := by
  constructor
  · intro i j hi hj hv
    exact onehotIndex_lt offset (hpre i j hi hj hv) hi hj
  · intro k hk
    refine (encode_onehot_char target rows cols tensor offset k).2 ?_
    rintro ⟨i, hi, j, hj, hv, hidx⟩
    have hb := onehotIndex_lt offset (hpre i j hi hj hv) hi hj
    omega

/-- Witness for `encode_onehot_write_bounds`: a 1×1 target with label 1
and 2 classes writes only index 1, inside [0, 2). -/
theorem encode_onehot_write_bounds_witness :
    0 ≤ onehotIndex 0 1 1 1 0 0 ∧ onehotIndex 0 1 1 1 0 0 < 0 + 2 * (1 * 1) := by
  have h := (encode_onehot_write_bounds (fun _ _ => 1) 1 1 0 2 (fun _ => 0)
    (fun _ _ _ _ _ => by norm_num)).1 0 0 (by norm_num) (by norm_num) (by norm_num)
  simpa using h

/-- Pointwise characterization of the whole packed targets tensor. -/
theorem batchTargets_char (targets : ℕ → ℕ → ℕ → ℕ)
    (batchSize numClasses rows cols k : ℕ) :
    ((∃ b, b < batchSize ∧
        written (targets b) rows cols (b * (numClasses * (rows * cols))) k) →
      batchTargets targets batchSize numClasses rows cols k = 1) ∧
    ((∀ b, b < batchSize →
        ¬ written (targets b) rows cols (b * (numClasses * (rows * cols))) k) →
      batchTargets targets batchSize numClasses rows cols k = 0) := by
  have h := @foldl_write_one
    (fun d b =>
      encode_onehot (targets b) rows cols d (b * (numClasses * (rows * cols))))
    (fun b k => written (targets b) rows cols (b * (numClasses * (rows * cols))) k)
    (fun d b k hw =>
      (encode_onehot_char (targets b) rows cols d (b * (numClasses * (rows * cols))) k).1 hw)
    (fun d b k hw =>
      (encode_onehot_char (targets b) rows cols d (b * (numClasses * (rows * cols))) k).2 hw)
    (List.range batchSize) (fun _ => 0) k
  constructor
  · rintro ⟨b, hb, hw⟩
    exact h.1 ⟨b, List.mem_range.mpr hb, hw⟩
  · intro hall
    exact h.2 (fun b hb => hall b (List.mem_range.mp hb))

/-- C2: one-hot correctness.  Under the precondition that every non-void
pixel value is below `numClasses`, the class-channel column sum at any
pixel `(b, y, x)` of the packed targets tensor is 0 or 1, and it is 0
exactly when the underlying 8-bit target pixel is the void sentinel
255. -/
theorem onehot_column_correct (targets : ℕ → ℕ → ℕ → ℕ)
    (batchSize numClasses rows cols : ℕ)
    (hpre : ∀ b i j, b < batchSize → i < rows → j < cols →
      targets b i j ≠ 255 → targets b i j < numClasses)
    (b y x : ℕ) (hb : b < batchSize) (hy : y < rows) (hx : x < cols) :
    (onehotColumnSum targets batchSize numClasses rows cols b y x = 0 ∨
     onehotColumnSum targets batchSize numClasses rows cols b y x = 1) ∧
    (onehotColumnSum targets batchSize numClasses rows cols b y x = 0 ↔
      targets b y x = 255) := by
  have hsummand : ∀ c ∈ Finset.range numClasses,
      batchTargets targets batchSize numClasses rows cols
        (onehotIndex (b * (numClasses * (rows * cols))) rows cols c y x) =
      if c = targets b y x ∧ targets b y x ≠ 255 then (1 : ℚ) else 0 := by
    intro c hc
    rw [Finset.mem_range] at hc
    by_cases hcase : c = targets b y x ∧ targets b y x ≠ 255
    · rw [if_pos hcase]
      refine (batchTargets_char targets batchSize numClasses rows cols _).1 ?_
      refine ⟨b, hb, y, hy, x, hx, hcase.2, ?_⟩
      rw [← hcase.1]
    · rw [if_neg hcase]
      refine (batchTargets_char targets batchSize numClasses rows cols _).2 ?_
      intro b' hb'
      rintro ⟨i, hi, j, hj, hv, hidx⟩
      have hv' : targets b' i j < numClasses := hpre b' i j hb' hi hj hv
      have hin1 : targets b' i j * (rows * cols) + (i * cols + j) <
          numClasses * (rows * cols) := radix_bound hv' (radix_bound hi hj)
      have hin2 : c * (rows * cols) + (y * cols + x) <
          numClasses * (rows * cols) := radix_bound hc (radix_bound hy hx)
      unfold onehotIndex at hidx
      have hflat : b' * (numClasses * (rows * cols)) +
          (targets b' i j * (rows * cols) + (i * cols + j)) =
          b * (numClasses * (rows * cols)) +
          (c * (rows * cols) + (y * cols + x)) := by
        omega
      have houter := radix_unique hin1 hin2 hflat
      have hmid := radix_unique (radix_bound hi hj) (radix_bound hy hx) houter.2
      have hlast := radix_unique hj hx hmid.2
      apply hcase
      have hbb : b' = b := houter.1
      have hii : i = y := hlast.1
      have hjj : j = x := hlast.2
      rw [hbb, hii, hjj] at hmid hv
      exact ⟨hmid.1.symm, hv⟩
  unfold onehotColumnSum
  rw [Finset.sum_congr rfl hsummand]
  by_cases hvoid : targets b y x = 255
  · have hzero : ∀ c ∈ Finset.range numClasses,
        (if c = targets b y x ∧ targets b y x ≠ 255 then (1 : ℚ) else 0) = 0 := by
      intro c _
      rw [if_neg]
      rintro ⟨_, h⟩
      exact h hvoid
    rw [Finset.sum_congr rfl hzero, Finset.sum_const_zero]
    exact ⟨Or.inl rfl, by simp [hvoid]⟩
  · have hvc : targets b y x < numClasses := hpre b y x hb hy hx hvoid
    have hone : ∀ c ∈ Finset.range numClasses,
        (if c = targets b y x ∧ targets b y x ≠ 255 then (1 : ℚ) else 0) =
        if c = targets b y x then (1 : ℚ) else 0 := by
      intro c _
      by_cases h : c = targets b y x
      · rw [if_pos ⟨h, hvoid⟩, if_pos h]
      · rw [if_neg (fun hh => h hh.1), if_neg h]
    rw [Finset.sum_congr rfl hone,
      Finset.sum_ite_eq' (Finset.range numClasses) (targets b y x) (fun _ => (1 : ℚ)),
      if_pos (Finset.mem_range.mpr hvc)]
    refine ⟨Or.inr rfl, ?_⟩
    constructor
    · intro h
      exact absurd h one_ne_zero
    · intro h
      exact absurd h hvoid

/-- Witness for `onehot_column_correct`: a single void pixel with 3
classes gives the all-zero column, sum 0. -/
theorem onehot_column_correct_witness :
    (onehotColumnSum (fun _ _ _ => 255) 1 3 1 1 0 0 0 = 0 ∨
     onehotColumnSum (fun _ _ _ => 255) 1 3 1 1 0 0 0 = 1) ∧
    (onehotColumnSum (fun _ _ _ => 255) 1 3 1 1 0 0 0 = 0 ↔ (255 : ℕ) = 255) := by
  have h := onehot_column_correct (fun _ _ _ => 255) 1 3 1 1
    (fun _ _ _ _ _ _ hne => absurd rfl hne) 0 0 0
    (by norm_num) (by norm_num) (by norm_num)
  simpa using h

/-- The Fisher-Yates swap sequence depends only on the generator state:
shuffling `v ∘ w` is shuffling `w` followed by relabelling through `v`. -/
theorem fyApply_comp {σ : Type} (rand : σ → ℕ → ℕ × σ) :
    ∀ (i : ℕ) (v w : ℕ → ℕ) (g : σ),
      fyApply rand i (v ∘ w) g =
        (v ∘ (fyApply rand i w g).1, (fyApply rand i w g).2) := by
  intro i
  induction i with
  | zero =>
    intro v w g
    rfl
  | succ i ih =>
    intro v w g
    exact ih v (w ∘ (Equiv.swap (i + 1) (rand g (i + 1)).1)) (rand g (i + 1)).2

/-- `reset()` replays the seed's position permutation on the current key
vector: the post-reset key vector is the current key vector composed
with the permutation that construction applied to 0..n-1 — not the
constructed key vector itself. -/
theorem random_reset_applies_same_permutation {σ : Type} (rand : σ → ℕ → ℕ × σ)
    (n : ℕ) (keys : ℕ → ℕ) (g0 : σ) :
    (randomIterReset rand n keys g0).1 = keys ∘ (randomIterInit rand n g0).1 := by
  have h := fyApply_comp rand (n - 1) keys (fun x => x) g0
  unfold randomIterReset randomIterInit shuffleKeys
  rw [show keys ∘ (fun x : ℕ => x) = keys from rfl] at h
  rw [h]

/-- C5: reset does not reproduce the emission sequence.  With two
elements and a generator whose Fisher-Yates draw swaps positions 1 and
0 (drawn index 0), the first epoch after construction emits [1, 0];
after `reset()` the already-shuffled key vector is shuffled again by the
same replayed swap, so the next epoch emits [0, 1] — a different
sequence, contradicting the claim that the post-reset sequence equals
the post-construction sequence. -/
theorem random_reset_not_reproducible :
    epochSeq (randomIterInit randZero 2 ()).1 2 = [1, 0] ∧
    epochSeq (randomIterReset randZero 2 (randomIterInit randZero 2 ()).1 ()).1 2 = [0, 1] ∧
    ([1, 0] : List ℕ) ≠ [0, 1] := by
  refine ⟨?_, ?_, by decide⟩
  · show [((fun x : ℕ => x) ∘ (Equiv.swap 1 0)) 0,
          ((fun x : ℕ => x) ∘ (Equiv.swap 1 0)) 1] = [1, 0]
    simp [Equiv.swap_apply_def]
  · show [(((fun x : ℕ => x) ∘ (Equiv.swap 1 0)) ∘ (Equiv.swap 1 0)) 0,
          (((fun x : ℕ => x) ∘ (Equiv.swap 1 0)) ∘ (Equiv.swap 1 0)) 1] = [0, 1]
    simp [Equiv.swap_apply_def]

/-- C10: the tensor copy constructor is not a faithful copy.  For the
rank-1 tensor with shape [2] and data [5, 7], the copy keeps the shape
(so `getSize` is still 2) but its data vector is [5, 7, 0, 0] of length
4 = 2 * getSize, because the constructor resizes to `getSize()` and then
inserts the source data at the front instead of overwriting.  Copy
assignment misbehaves the same way. -/
theorem tensor_copy_length_bug :
    Tensor.copy ⟨[2], [5, 7]⟩ = ⟨[2], [5, 7, 0, 0]⟩ ∧
    (Tensor.copy ⟨[2], [5, 7]⟩).data.length = 4 ∧
    (Tensor.copy ⟨[2], [5, 7]⟩).getSize = 2 ∧
    (Tensor.assign ⟨[2], [0, 0]⟩ ⟨[2], [5, 7]⟩).data.length = 4 := by
  refine ⟨?_, rfl, rfl, rfl⟩
  show Tensor.mk [2] ([5, 7] ++ List.replicate (Tensor.getSize ⟨[2], [5, 7]⟩) 0) = _
  norm_num [Tensor.getSize, List.replicate]

end Chianti
